import Mathlib

/-!
Verification of the iris replicated key-value registry.

Go maps (`map[string]V`) are embedded as association lists over `String`
kept strictly sorted by key, the canonical representative of a finite map:
equality of sorted association lists coincides with extensional equality of
the Go maps they model.  Byte slices (`[]byte`) are embedded as lists of
`Fin 256`.

The definitions mirror, function by function, the code in
`store/fsm.go`, `store/store.go` and `transport/server.go`.
-/

namespace Iris

/-- String comparison decided through the character list, so that concrete
instances evaluate inside the kernel. -/
instance decStringLT (s t : String) : Decidable (s < t) :=
  decidable_of_iff (s.toList < t.toList) String.lt_iff_toList_lt.symm

/-! ## Sorted association lists: the embedding of Go maps -/

variable {α : Type*}

/-- Lookup in an association list: `m[k]` with `ok` flag in Go. -/
def alook (k : String) : List (String × α) → Option α
  | [] => none
  | (k1, v1) :: t => if k = k1 then some v1 else alook k t

/-- Insert-or-overwrite at the sorted position: `m[k] = v` in Go. -/
def ains (k : String) (v : α) : List (String × α) → List (String × α)
  | [] => [(k, v)]
  | (k1, v1) :: t =>
    if k < k1 then (k, v) :: (k1, v1) :: t
    else if k = k1 then (k, v) :: t
    else (k1, v1) :: ains k v t

/-- Remove a key: `delete(m, k)` in Go. -/
def aers (k : String) : List (String × α) → List (String × α)
  | [] => []
  | (k1, v1) :: t => if k = k1 then t else (k1, v1) :: aers k t

/-- The key list of the map: `for k := range m` in Go (canonical order). -/
def akeys (l : List (String × α)) : List String := l.map Prod.fst

/-- Well-formedness of the map representation: keys strictly ascending. -/
def SortedA (l : List (String × α)) : Prop := l.Pairwise (fun a b => a.1 < b.1)

instance (l : List (String × α)) : Decidable (SortedA l) := by
  unfold SortedA
  infer_instance


/-! ## Data model (`store/store.go`, `store/fsm.go`)

A value is a Go byte slice; the empty list stands for both `nil` and the
empty slice (they are indistinguishable as byte strings on the wire).
`kvs` is Go's `map[string][]byte`, `Storage` is `map[string]kvs`. -/

/-- A byte of a Go `[]byte` value. -/
abbrev Byte := Fin 256

/-- A Go `[]byte` value; `[]` models both `nil` and the empty slice. -/
abbrev Value := List Byte

/-- `type kvs map[string][]byte` (store/store.go). -/
abbrev kvs := List (String × Value)

/-- `storage map[string]kvs` (store/store.go). -/
abbrev Storage := List (String × kvs)

/-- Well-formed storage representation: outer and inner maps sorted. -/
def StorageWF (st : Storage) : Prop := SortedA st ∧ ∀ p ∈ st, SortedA p.2

instance : DecidablePred (StorageWF) := fun st => by
  unfold StorageWF SortedA
  infer_instance

/-- The three command operations of `store/store.go` plus the unknown case
that `fsm.applyCommand` logs and discards. -/
inductive Cmd where
  | set (source key : String) (value : Value)
  | deletekey (source key : String)
  | deleteSource (source : String)
  | unknown (operation : String)
deriving DecidableEq

/-- A publish event handed to the `PublishCallback`; deletes pass `nil`,
modelled as the empty value. -/
structure PublishEvent where
  source : String
  key : String
  value : Value
deriving DecidableEq

namespace fsm

/-- `func (f *fsm) set(source, key string, value []byte)` (store/fsm.go):
create the inner map lazily, then insert or overwrite the key. -/
def set (st : Storage) (source key : String) (value : Value) : Storage :=
  let inner := (alook source st).getD []
  ains source (ains key value inner) st

/-- `func (f *fsm) deleteSource(source string) []string` (store/fsm.go):
collect the keys of the source, remove the source entry, return the keys. -/
def deleteSource (st : Storage) (source : String) : List String × Storage :=
  match alook source st with
  | none => ([], st)
  | some m => (akeys m, aers source st)

/-- `func (f *fsm) deleteKey(source, key string) bool` (store/fsm.go):
remove the key if present; if the inner map becomes empty remove the
source entry; report whether the key was found. -/
def deleteKey (st : Storage) (source key : String) : Bool × Storage :=
  match alook source st with
  | none => (false, st)
  | some m =>
    let found := (alook key m).isSome
    let m2 := aers key m
    if m2.isEmpty then (found, aers source st)
    else (found, ains source m2 st)

/-- `func (f *fsm) applyCommand(c command) interface{}` (store/fsm.go)
combined with `applySet` / `appleDeleteSource` / `appleDeleteKey`: apply
the command and collect the publish events forwarded to the callback.
An unrecognized operation is logged and discarded. -/
def applyCommand (st : Storage) : Cmd → Storage × List PublishEvent
  | .set source key value => (set st source key value, [⟨source, key, value⟩])
  | .deletekey source key =>
    let r := deleteKey st source key
    (r.2, if r.1 then [⟨source, key, []⟩] else [])
  | .deleteSource source =>
    let r := deleteSource st source
    (r.2, r.1.map fun k => ⟨source, k, []⟩)
  | .unknown _ => (st, [])

/-- Apply a committed command sequence in log order, as the raft apply
loop does, discarding the publish events. -/
def applyAll (st : Storage) (cmds : List Cmd) : Storage :=
  cmds.foldl (fun acc c => (applyCommand acc c).1) st

/-- `func clone(o map[string]kvs) map[string]kvs` (store/fsm.go): build a
fresh outer map by iterating the sources and copying each inner map
entry by entry.  The argument is only read, never written. -/
def clone (o : Storage) : Storage :=
  o.foldl (fun acc p => ains p.1 (p.2.foldl (fun acc2 q => ains q.1 q.2 acc2) []) acc) []

/-- `func (f *fsm) Snapshot()` (store/fsm.go): the snapshot handle holds a
clone of the storage taken under the FSM lock. -/
def Snapshot (st : Storage) : Storage := clone st

end fsm

namespace Store

/-- `func (s *Store) Get(source, key string) []byte` (store/store.go):
a missing source yields `nil`; otherwise the inner map lookup, which
yields `nil` for a missing key.  `nil` is the empty value. -/
def Get (st : Storage) (source key : String) : Value :=
  match alook source st with
  | none => []
  | some m => (alook key m).getD []

/-- `func (s *Store) GetSources() ([]string, error)` (store/store.go):
the keys of the outer map (iteration order made canonical). -/
def GetSources (st : Storage) : List String := akeys st

/-- `func (s *Store) GetKeys(source string) ([]string, error)`
(store/store.go): the keys of `storage[source]`; ranging over a `nil`
map yields nothing. -/
def GetKeys (st : Storage) (source : String) : List String :=
  akeys ((alook source st).getD [])

end Store

/-! ## Store mutation façade (`store/store.go`)

The leader check guards every mutation.  The raft log itself is an
external collaborator: the model records which commands a call submits to
it; the commit outcome and the eventual FSM application arrive through the
log and are modelled separately by `fsm.applyCommand`. -/

/-- The mutable state of a `Store` node visible to the façade: the raft
leadership status, the local FSM storage, and the peer set held by the
log's membership machinery. -/
structure StoreState where
  isLeader : Bool
  storage : Storage
  peers : List String
deriving DecidableEq

/-- Outcome of a façade mutation: the returned error (if any), the
commands this call submitted to the raft log, and the store state as left
by the call itself (FSM application happens later, via the log). -/
structure MutOutcome where
  result : Except String Unit
  submitted : List Cmd
  state : StoreState

namespace Store

/-- `func (s *Store) Set(source, key string, value []byte) error`
(store/store.go): refuse when not leader, otherwise encode a SET command
and submit it to the log.  The commit outcome belongs to the external log
and is modelled as success. -/
def Set (s : StoreState) (source key : String) (value : Value) : MutOutcome :=
  if !s.isLeader then ⟨.error "Set should only be called on the leader", [], s⟩
  else ⟨.ok (), [.set source key value], s⟩

/-- `func (s *Store) DeleteKey(source, key string) error` (store/store.go). -/
def DeleteKey (s : StoreState) (source key : String) : MutOutcome :=
  if !s.isLeader then ⟨.error "DeleteKey should only be called on the leader", [], s⟩
  else ⟨.ok (), [.deletekey source key], s⟩

/-- `func (s *Store) DeleteSource(source string) error` (store/store.go). -/
def DeleteSource (s : StoreState) (source : String) : MutOutcome :=
  if !s.isLeader then ⟨.error "DeleteSource should only be called on the leader", [], s⟩
  else ⟨.ok (), [.deleteSource source], s⟩

/-- `func (s *Store) Join(addr string) error` (store/store.go): refuse
when not leader; `raft.ErrKnownPeer` from `AddPeer` is treated as
success. -/
def Join (s : StoreState) (addr : String) : Except String Unit × StoreState :=
  if !s.isLeader then (.error "Join should only be called on the leader", s)
  else if addr ∈ s.peers then (.ok (), s)
  else (.ok (), { s with peers := s.peers ++ [addr] })

end Store

/-! ## Snapshot serialization (`store/fsm.go`)

`fsmSnapshot.Persist` writes `json.Marshal(f.store)` to the sink and
`fsm.Restore` reads it back with a JSON decoder.  The byte-level JSON
grammar belongs to Go's standard library; it is modelled at the level of
the JSON value tree: objects carry their members in emission order (Go
marshals map keys sorted), and a `[]byte` value marshals as a base64
string (RFC 4648 standard alphabet with padding). -/

/-- The base64 standard alphabet. -/
def b64chars : List Char :=
  "ABCDEFGHIJKLMNOPQRSTUVWXYZabcdefghijklmnopqrstuvwxyz0123456789+/".data

/-- Sixtet to base64 character. -/
def sixToChar (n : Nat) : Char := b64chars.getD n 'A'

/-- Base64 character back to its sixtet. -/
def charToSix (c : Char) : Option Nat := List.indexOf? c b64chars

/-- Truncate a natural number into a byte. -/
def mkByte (n : Nat) : Byte := ⟨n % 256, Nat.mod_lt _ (by norm_num)⟩

/-- Base64 encoding of a byte string, three bytes to four characters,
padded with `=` as in RFC 4648. -/
def b64encode : List Byte → List Char
  | [] => []
  | [a] => [sixToChar (a.val / 4), sixToChar (a.val % 4 * 16), '=', '=']
  | [a, b] => [sixToChar (a.val / 4), sixToChar (a.val % 4 * 16 + b.val / 16),
               sixToChar (b.val % 16 * 4), '=']
  | a :: b :: c :: t =>
    sixToChar (a.val / 4) :: sixToChar (a.val % 4 * 16 + b.val / 16) ::
    sixToChar (b.val % 16 * 4 + c.val / 64) :: sixToChar (c.val % 64) :: b64encode t

/-- Base64 decoding, the inverse of `b64encode`; rejects ill-formed
quadruples and misplaced padding. -/
def b64decode : List Char → Option (List Byte)
  | [] => some []
  | c1 :: c2 :: c3 :: c4 :: rest =>
    match charToSix c1, charToSix c2 with
    | some s1, some s2 =>
      if c3 = '=' then
        if c4 = '=' ∧ rest = [] then some [mkByte (s1 * 4 + s2 / 16)]
        else none
      else
        match charToSix c3 with
        | some s3 =>
          if c4 = '=' then
            if rest = [] then some [mkByte (s1 * 4 + s2 / 16), mkByte (s2 % 16 * 16 + s3 / 4)]
            else none
          else
            match charToSix c4, b64decode rest with
            | some s4, some t =>
              some (mkByte (s1 * 4 + s2 / 16) :: mkByte (s2 % 16 * 16 + s3 / 4) ::
                    mkByte (s3 % 4 * 64 + s4) :: t)
            | _, _ => none
        | none => none
    | _, _ => none
  | _ => none

/-- The JSON value fragment spanned by the snapshot image
`map[string]map[string][]byte`. -/
inductive Json where
  | str (s : String)
  | obj (members : List (String × Json))

/-- `json.Marshal` of an inner `kvs` map: an object whose members are the
keys in sorted order, each value a base64 string. -/
def encodeKvs (m : kvs) : Json :=
  .obj (m.map fun q => (q.1, .str ⟨b64encode q.2⟩))

/-- `json.Marshal` of the storage map. -/
def encodeStorage (st : Storage) : Json :=
  .obj (st.map fun p => (p.1, encodeKvs p.2))

/-- JSON decoding of an inner map: fold the members into a fresh map, as
the stream decoder populates `map[string][]byte`. -/
def decodeKvs : Json → Option kvs
  | .obj ms => ms.foldlM (fun acc q =>
      match q.2 with
      | .str s => (b64decode s.data).map fun v => ains q.1 v acc
      | .obj _ => none) []
  | _ => none

/-- JSON decoding of the storage map. -/
def decodeStorage : Json → Option Storage
  | .obj ms => ms.foldlM (fun acc q => (decodeKvs q.2).map fun m => ains q.1 m acc) []
  | _ => none

namespace fsm

/-- `func (f *fsmSnapshot) Persist(s raft.SnapshotSink) error`
(store/fsm.go): marshal the cloned store to the sink. -/
def Persist (snap : Storage) : Json := encodeStorage snap

/-- `func (f *fsm) Restore(rc io.ReadCloser) error` (store/fsm.go):
decode a full storage image and assign it as the current state. -/
def Restore (image : Json) : Option Storage := decodeStorage image

end fsm

/-! ## Transport server (`transport/server.go`)

Sessions, the two subscription indices, update fan-out, and session
lifecycle.  A client stream handle (`pb.Iris_ListenServer`) is external
I/O; it is modelled as an opaque token so that a session either holds a
stream (`some token`) or none, exactly the information `publish` and
`Listen` consult. -/

/-- An opaque handle for a `pb.Iris_ListenServer` stream. -/
abbrev StreamHandle := Nat

/-- `type Session struct` (transport/server.go): an identifier and an
optional listener stream. -/
structure Session where
  ID : String
  Listener : Option StreamHandle
deriving DecidableEq

/-- `type SessionMap map[string]struct{}` (transport/server.go). -/
abbrev SessionMap := List (String × Unit)

/-- The cached state of a `Server` (transport/server.go): the session
registry, the source-subscription index and the key-subscription index. -/
structure ServerState where
  sessions : List (String × Session)
  sourceSubs : List (String × SessionMap)
  keySubs : List (String × List (String × SessionMap))
deriving DecidableEq

/-- Well-formed server state: every Go map is represented sorted. -/
def ServerWF (s : ServerState) : Prop :=
  SortedA s.sessions ∧
  (SortedA s.sourceSubs ∧ ∀ p ∈ s.sourceSubs, SortedA p.2) ∧
  (SortedA s.keySubs ∧ ∀ p ∈ s.keySubs, SortedA p.2 ∧ ∀ q ∈ p.2, SortedA q.2)

instance : DecidablePred ServerWF := fun s => by
  unfold ServerWF SortedA
  infer_instance

/-- The freshly initialized server: all maps empty (`initialize` leaves
them nil; the lazy `make` calls populate them on first use). -/
def ServerState.empty : ServerState := ⟨[], [], []⟩

namespace Server

/-- `func (s *Server) Subscribe(...)` (transport/server.go): reject an
empty session or source, then place the session identifier into the
source-subscription set, creating the maps lazily.  The response echoes
the source. -/
def Subscribe (s : ServerState) (session source : String) :
    Except String (ServerState × String) :=
  if session.length = 0 then
    .error "Subscribe requires that you provide a valid session"
  else if source.length = 0 then
    .error "Subscribe requires that you provide a source"
  else
    let setFor := (alook source s.sourceSubs).getD []
    .ok ({ s with sourceSubs := ains source (ains session () setFor) s.sourceSubs }, source)

/-- `func (s *Server) SubscribeKey(...)` (transport/server.go). -/
def SubscribeKey (s : ServerState) (session source key : String) :
    Except String (ServerState × String × String) :=
  if session.length = 0 then
    .error "SubscribeKey requires that you provide a valid session"
  else if source.length = 0 then
    .error "SubscribeKey requires that you provide a source"
  else if key.length = 0 then
    .error "SubscribeKey requires that you provide a key"
  else
    let forSource := (alook source s.keySubs).getD []
    let forKey := (alook key forSource).getD []
    .ok ({ s with
            keySubs := ains source (ains key (ains session () forKey) forSource) s.keySubs },
         source, key)

/-- `func (s *Server) Unsubscribe(...)` (transport/server.go): reject an
empty session or source; a missing set or absent session is a no-op
success answering an empty response, otherwise the session is removed and
the response echoes the source. -/
def Unsubscribe (s : ServerState) (session source : String) :
    Except String (ServerState × Option String) :=
  if session.length = 0 then
    .error "Unsubscribe requires that you provide a session"
  else if source.length = 0 then
    .error "Unsubscribe requires that you provide a source"
  else
    match alook source s.sourceSubs with
    | none => .ok (s, none)
    | some setFor =>
      if (alook session setFor).isNone then .ok (s, none)
      else
        .ok ({ s with sourceSubs := ains source (aers session setFor) s.sourceSubs },
             some source)

/-- `func (s *Server) UnsubscribeKey(...)` (transport/server.go). -/
def UnsubscribeKey (s : ServerState) (session source key : String) :
    Except String (ServerState × Option (String × String)) :=
  if session.length = 0 then
    .error "UnsubscribeKey requires that you provide a valid session"
  else if source.length = 0 then
    .error "UnsubscribeKey requires that you provide a source"
  else if key.length = 0 then
    .error "UnsubscribeKey requires that you provide a key"
  else
    match alook source s.keySubs with
    | none => .ok (s, none)
    | some forSource =>
      match alook key forSource with
      | none => .ok (s, none)
      | some forKey =>
        if (alook session forKey).isNone then .ok (s, none)
        else
          .ok ({ s with
                  keySubs := ains source (ains key (aers session forKey) forSource) s.keySubs },
               some (source, key))

/-- The body of `notify` inside `func (s *Server) publish`
(transport/server.go): a send happens only when the identifier resolves
to a session holding a listener stream. -/
def notifies (s : ServerState) (identifier : String) : Bool :=
  match alook identifier s.sessions with
  | some sess => sess.Listener.isSome
  | none => false

/-- `func (s *Server) publish(source, key string, value []byte) error`
(transport/server.go): build the update, walk the source-subscription
set, then the key-subscription set, sending the update to every resolved
stream.  The result lists the sends performed — one `(identifier, update)`
pair per `Send` call, in emission order; the code performs no
deduplication between the two sets. -/
def publish (s : ServerState) (source key : String) (value : Value) :
    List (String × PublishEvent) :=
  let update : PublishEvent := ⟨source, key, value⟩
  let fromSet : SessionMap → List (String × PublishEvent) := fun ids =>
    ((akeys ids).filter fun identifier => notifies s identifier).map
      fun identifier => (identifier, update)
  fromSet ((alook source s.sourceSubs).getD []) ++
  fromSet ((alook key ((alook source s.keySubs).getD [])).getD [])

/-- `func (s *Server) addSession(...)` (transport/server.go): create the
registry lazily, then store the session record under its identifier,
overwriting any previous record; this step cannot fail. -/
def addSession (s : ServerState) (sessionIdentifier : String)
    (listener : Option StreamHandle) : ServerState × Session :=
  let session : Session := ⟨sessionIdentifier, listener⟩
  ({ s with sessions := ains sessionIdentifier session s.sessions }, session)

/-- `func (s *Server) removeSession(...)` (transport/server.go): the
session identifier is deleted from `sourceSubs`, from `keySubs` and from
`sessions` — in each case as a top-level map key. -/
def removeSession (s : ServerState) (sessionIdentifier : String) : ServerState :=
  { sessions := aers sessionIdentifier s.sessions
    sourceSubs := aers sessionIdentifier s.sourceSubs
    keySubs := aers sessionIdentifier s.keySubs }

/-- The registration step of `func (s *Server) Listen` (transport/server.go):
attach the inbound stream under the requested session identifier via
`addSession`; the handler then parks on the stream context. -/
def ListenRegister (s : ServerState) (reqSession : String)
    (stream : StreamHandle) : ServerState :=
  (addSession s reqSession (some stream)).1

end Server

/-! ## Session identifier generation (`transport/server.go`) -/

/-- The uppercase hexadecimal digits emitted by Go's `%X` verb. -/
def hexChars : List Char := "0123456789ABCDEF".data

/-- One hexadecimal digit. -/
def hexDigit (n : Nat) : Char := hexChars.getD n '0'

/-- `fmt.Sprintf("%X", b)` on a byte slice: each byte becomes two
uppercase hexadecimal digits, high nibble first. -/
def formatHexUpper (b : List Byte) : String :=
  ⟨b.flatMap fun x => [hexDigit (x.val / 16), hexDigit (x.val % 16)]⟩

namespace Server

/-- `func (s *Server) generateSessionID(length int) (string, error)`
(transport/server.go): draw random bytes, format them as uppercase hex,
and retry while the identifier is already a key of the session registry.
The entropy argument models the successive outputs of `rand.Read`; an
exhausted supply models a read failure. -/
def generateSessionID (sessions : List (String × Session)) :
    List (List Byte) → Option String
  | [] => none
  | b :: rest =>
    let session := formatHexUpper b
    if (alook session sessions).isSome then generateSessionID sessions rest
    else some session

/-- `func (s *Server) Connect(...)` (transport/server.go): generate a
fresh identifier and insert the session with no stream attached. -/
def Connect (s : ServerState) (entropy : List (List Byte)) :
    Option (ServerState × String) :=
  match generateSessionID s.sessions entropy with
  | none => none
  | some session => some ((addSession s session none).1, session)

end Server

/-! ## Lemmas about the map embedding -/

theorem sortedA_nil : SortedA ([] : List (String × α)) := List.Pairwise.nil

theorem sortedA_cons {p : String × α} {t : List (String × α)}
    (h : SortedA (p :: t)) : SortedA t := h.tail

theorem sortedA_head {p : String × α} {t : List (String × α)}
    (h : SortedA (p :: t)) : ∀ q ∈ t, p.1 < q.1 := by
  intro q hq
  exact (List.pairwise_cons.mp h).1 q hq

@[simp] theorem alook_nil (k : String) : alook k ([] : List (String × α)) = none := rfl

theorem alook_cons (k k1 : String) (v1 : α) (t : List (String × α)) :
    alook k ((k1, v1) :: t) = if k = k1 then some v1 else alook k t := rfl

theorem alook_ains_self (k : String) (v : α) (l : List (String × α)) :
    alook k (ains k v l) = some v := by
  induction l with
  | nil => simp [ains, alook]
  | cons p t ih =>
    obtain ⟨k1, v1⟩ := p
    by_cases h1 : k < k1
    · simp [ains, h1, alook]
    · by_cases h2 : k = k1
      · simp [ains, h1, h2, alook]
      · simp [ains, h1, h2, alook, ih]

theorem alook_ains_ne (k k1 : String) (v : α) (l : List (String × α)) (hne : k1 ≠ k) :
    alook k1 (ains k v l) = alook k1 l := by
  induction l with
  | nil => simp [ains, alook, hne]
  | cons p t ih =>
    obtain ⟨k2, v2⟩ := p
    by_cases h1 : k < k2
    · simp [ains, h1, alook, hne]
    · by_cases h2 : k = k2
      · subst h2
        simp [ains, h1, alook, hne]
      · by_cases h3 : k1 = k2
        · simp [ains, h1, h2, alook, h3]
        · simp [ains, h1, h2, alook, h3, ih]

theorem alook_aers_ne (k k1 : String) (l : List (String × α)) (hne : k1 ≠ k) :
    alook k1 (aers k l) = alook k1 l := by
  induction l with
  | nil => simp [aers]
  | cons p t ih =>
    obtain ⟨k2, v2⟩ := p
    by_cases h2 : k = k2
    · subst h2
      simp [aers, alook, hne]
    · by_cases h3 : k1 = k2
      · simp [aers, h2, alook, h3]
      · simp [aers, h2, alook, h3, ih]

theorem alook_none_of_lt (k : String) (l : List (String × α))
    (hs : SortedA l) (h : ∀ q ∈ l, k < q.1) : alook k l = none := by
  induction l with
  | nil => rfl
  | cons p t ih =>
    have hk : k ≠ p.1 := ne_of_lt (h p (List.mem_cons_self _ _))
    obtain ⟨k1, v1⟩ := p
    simp only [alook, if_neg hk]
    exact ih hs.tail (fun q hq => h q (List.mem_cons_of_mem _ hq))

theorem alook_aers_self (k : String) (l : List (String × α)) (hs : SortedA l) :
    alook k (aers k l) = none := by
  induction l with
  | nil => rfl
  | cons p t ih =>
    obtain ⟨k1, v1⟩ := p
    by_cases h2 : k = k1
    · subst h2
      simp only [aers, if_pos rfl]
      exact alook_none_of_lt k t hs.tail (sortedA_head hs)
    · simp [aers, h2, alook, ih hs.tail]

theorem aers_absent (k : String) (l : List (String × α)) (h : alook k l = none) :
    aers k l = l := by
  induction l with
  | nil => rfl
  | cons p t ih =>
    obtain ⟨k1, v1⟩ := p
    by_cases h2 : k = k1
    · simp [alook, h2] at h
    · simp only [alook, if_neg h2] at h
      simp [aers, h2, ih h]

theorem mem_ains {q : String × α} {k : String} {v : α} {l : List (String × α)}
    (h : q ∈ ains k v l) : q = (k, v) ∨ q ∈ l := by
  induction l with
  | nil =>
    simp [ains] at h
    exact Or.inl h
  | cons p t ih =>
    obtain ⟨k1, v1⟩ := p
    by_cases h1 : k < k1
    · simp only [ains, if_pos h1] at h
      rcases List.mem_cons.mp h with h | h
      · exact Or.inl h
      · exact Or.inr h
    · by_cases h2 : k = k1
      · simp only [ains, if_neg h1, if_pos h2] at h
        rcases List.mem_cons.mp h with h | h
        · exact Or.inl h
        · exact Or.inr (List.mem_cons_of_mem _ h)
      · simp only [ains, if_neg h1, if_neg h2] at h
        rcases List.mem_cons.mp h with h | h
        · exact Or.inr (h ▸ List.mem_cons_self _ _)
        · rcases ih h with h | h
          · exact Or.inl h
          · exact Or.inr (List.mem_cons_of_mem _ h)

theorem sortedA_ains (k : String) (v : α) (l : List (String × α)) (hs : SortedA l) :
    SortedA (ains k v l) := by
  induction l with
  | nil => simp [ains, SortedA]
  | cons p t ih =>
    obtain ⟨k1, v1⟩ := p
    by_cases h1 : k < k1
    · simp only [ains, if_pos h1]
      refine List.pairwise_cons.mpr ⟨?_, hs⟩
      intro q hq
      rcases List.mem_cons.mp hq with h | h
      · subst h; exact h1
      · exact lt_trans h1 (sortedA_head hs q h)
    · by_cases h2 : k = k1
      · subst h2
        simp only [ains, if_neg h1, if_pos rfl]
        exact List.pairwise_cons.mpr ⟨fun q hq => sortedA_head hs q hq, hs.tail⟩
      · simp only [ains, if_neg h1, if_neg h2]
        have hgt : k1 < k := by
          rcases lt_trichotomy k k1 with h | h | h
          · exact absurd h h1
          · exact absurd h h2
          · exact h
        refine List.pairwise_cons.mpr ⟨?_, ih hs.tail⟩
        intro q hq
        rcases mem_ains hq with h | h
        · rw [h]; exact hgt
        · exact sortedA_head hs q h

theorem mem_aers {q : String × α} {k : String} {l : List (String × α)}
    (h : q ∈ aers k l) : q ∈ l := by
  induction l with
  | nil => simp [aers] at h
  | cons p t ih =>
    obtain ⟨k1, v1⟩ := p
    by_cases h1 : k = k1
    · simp only [aers, if_pos h1] at h
      exact List.mem_cons_of_mem _ h
    · simp only [aers, if_neg h1] at h
      rcases List.mem_cons.mp h with h | h
      · exact h ▸ List.mem_cons_self _ _
      · exact List.mem_cons_of_mem _ (ih h)

theorem sortedA_aers (k : String) (l : List (String × α)) (hs : SortedA l) :
    SortedA (aers k l) := by
  induction l with
  | nil => exact sortedA_nil
  | cons p t ih =>
    obtain ⟨k1, v1⟩ := p
    by_cases h1 : k = k1
    · simp only [aers, if_pos h1]
      exact hs.tail
    · simp only [aers, if_neg h1]
      refine List.pairwise_cons.mpr ⟨?_, ih hs.tail⟩
      intro q hq
      exact sortedA_head hs q (mem_aers hq)

theorem ains_self_eq (k : String) (v : α) (l : List (String × α))
    (hs : SortedA l) (h : alook k l = some v) : ains k v l = l := by
  induction l with
  | nil => simp [alook] at h
  | cons p t ih =>
    obtain ⟨k1, v1⟩ := p
    by_cases h2 : k = k1
    · subst h2
      have hv : v1 = v := by simp [alook] at h; exact h
      subst hv
      simp [ains]
    · simp only [alook, if_neg h2] at h
      have hmem : (k, v) ∈ t := by
        -- lookup success implies membership
        clear ih hs
        induction t with
        | nil => simp [alook] at h
        | cons p2 t2 ih2 =>
          obtain ⟨k2, v2⟩ := p2
          by_cases h3 : k = k2
          · simp only [alook, if_pos h3, Option.some.injEq] at h
            exact h3 ▸ h ▸ List.mem_cons_self _ _
          · simp only [alook, if_neg h3] at h
            exact List.mem_cons_of_mem _ (ih2 h)
      have hgt : k1 < k := by
        have := sortedA_head hs (k, v) hmem
        exact this
      have h1 : ¬ k < k1 := not_lt_of_gt hgt
      simp [ains, h1, h2, ih hs.tail h]

theorem alook_mem {k : String} {v : α} {l : List (String × α)}
    (h : alook k l = some v) : (k, v) ∈ l := by
  induction l with
  | nil => simp [alook] at h
  | cons p t ih =>
    obtain ⟨k1, v1⟩ := p
    by_cases h1 : k = k1
    · simp only [alook, if_pos h1, Option.some.injEq] at h
      exact h1 ▸ h ▸ List.mem_cons_self _ _
    · simp only [alook, if_neg h1] at h
      exact List.mem_cons_of_mem _ (ih h)

theorem alook_eq_none_of_not_mem_akeys {k : String} {l : List (String × α)}
    (h : k ∉ akeys l) : alook k l = none := by
  induction l with
  | nil => rfl
  | cons p t ih =>
    obtain ⟨k1, v1⟩ := p
    simp only [akeys, List.map_cons, List.mem_cons] at h
    push_neg at h
    simp only [alook, if_neg h.1]
    exact ih h.2

theorem not_mem_akeys_of_alook_none {k : String} {l : List (String × α)}
    (h : alook k l = none) : k ∉ akeys l := by
  intro hmem
  induction l with
  | nil => simp [akeys] at hmem
  | cons p t ih =>
    obtain ⟨k1, v1⟩ := p
    by_cases h1 : k = k1
    · simp [alook, h1] at h
    · simp only [alook, if_neg h1] at h
      simp only [akeys, List.map_cons, List.mem_cons] at hmem
      rcases hmem with h2 | h2
      · exact h1 h2
      · exact ih h h2

theorem akeys_nodup (l : List (String × α)) (hs : SortedA l) : (akeys l).Nodup := by
  have h2 : (akeys l).Pairwise (fun a b : String => a < b) := by
    unfold akeys
    exact List.pairwise_map.mpr hs
  exact List.Pairwise.imp (fun h => ne_of_lt h) h2

/-- Inserting a key greater than every key of `acc` appends at the end. -/
theorem ains_append_of_gt (k : String) (v : α) (acc : List (String × α))
    (h : ∀ q ∈ acc, q.1 < k) : ains k v acc = acc ++ [(k, v)] := by
  induction acc with
  | nil => rfl
  | cons p t ih =>
    obtain ⟨k1, v1⟩ := p
    have hgt : k1 < k := h (k1, v1) (List.mem_cons_self _ _)
    have h1 : ¬ k < k1 := not_lt_of_gt hgt
    have h2 : k ≠ k1 := ne_of_gt hgt
    simp [ains, h1, h2, ih (fun q hq => h q (List.mem_cons_of_mem _ hq))]

/-- Re-inserting a sorted association list into an accumulator whose keys all
precede it reproduces the concatenation; iteration order in the Go source is
arbitrary, the sorted representative makes it canonical. -/
theorem foldl_ains_eq_append (l acc : List (String × α)) (hs : SortedA l)
    (hacc : ∀ p ∈ acc, ∀ q ∈ l, p.1 < q.1) :
    l.foldl (fun a p => ains p.1 p.2 a) acc = acc ++ l := by
  induction l generalizing acc with
  | nil => simp
  | cons p t ih =>
    obtain ⟨k1, v1⟩ := p
    simp only [List.foldl_cons]
    rw [ains_append_of_gt k1 v1 acc (fun q hq => hacc q hq (k1, v1) (List.mem_cons_self _ _))]
    rw [ih (acc ++ [(k1, v1)]) hs.tail]
    · simp
    · intro p hp q hq
      rcases List.mem_append.mp hp with h | h
      · exact lt_trans (hacc p h (k1, v1) (List.mem_cons_self _ _)) (sortedA_head hs q hq)
      · simp only [List.mem_singleton] at h
        rw [h]
        exact sortedA_head hs q hq

theorem foldl_ains_id (l : List (String × α)) (hs : SortedA l) :
    l.foldl (fun a p => ains p.1 p.2 a) [] = l := by
  simpa using foldl_ains_eq_append l [] hs (by simp)
theorem alook_isSome_iff {k : String} {l : List (String × α)} :
    (alook k l).isSome ↔ k ∈ akeys l := by
  constructor
  · intro h
    obtain ⟨v, hv⟩ := Option.isSome_iff_exists.mp h
    exact List.mem_map.mpr ⟨(k, v), alook_mem hv, rfl⟩
  · intro h
    by_contra hn
    rw [Option.not_isSome_iff_eq_none] at hn
    exact not_mem_akeys_of_alook_none hn h

theorem ains_ne_nil (k : String) (v : α) (l : List (String × α)) :
    ains k v l ≠ [] := by
  cases l with
  | nil => simp [ains]
  | cons p t =>
    obtain ⟨k1, v1⟩ := p
    by_cases h1 : k < k1
    · simp [ains, h1]
    · by_cases h2 : k = k1
      · simp [ains, h1, h2]
      · simp [ains, h1, h2]

theorem count_akeys (k : String) (l : List (String × α)) (hs : SortedA l) :
    (akeys l).count k = if (alook k l).isSome then 1 else 0 := by
  by_cases h : (alook k l).isSome
  · rw [if_pos h]
    exact List.count_eq_one_of_mem (akeys_nodup l hs) (alook_isSome_iff.mp h)
  · rw [if_neg h]
    exact List.count_eq_zero_of_not_mem (fun hm => h (alook_isSome_iff.mpr hm))

/-! ## The FSM never keeps an empty source -/

theorem applyCommand_no_empty (st : Storage) (c : Cmd)
    (h : ∀ p ∈ st, p.2 ≠ []) :
    ∀ p ∈ (fsm.applyCommand st c).1, p.2 ≠ [] := by
  cases c with
  | set source key value =>
    intro p hp
    simp only [fsm.applyCommand, fsm.set] at hp
    rcases mem_ains hp with h1 | h1
    · rw [h1]
      exact ains_ne_nil _ _ _
    · exact h p h1
  | deletekey source key =>
    intro p hp
    simp only [fsm.applyCommand, fsm.deleteKey] at hp
    cases halook : alook source st with
    | none =>
      rw [halook] at hp
      exact h p hp
    | some m =>
      rw [halook] at hp
      by_cases he : (aers key m).isEmpty
      · simp only [if_pos he] at hp
        exact h p (mem_aers hp)
      · simp only [if_neg he] at hp
        rcases mem_ains hp with h1 | h1
        · rw [h1]
          simpa [List.isEmpty_iff] using he
        · exact h p h1
  | deleteSource source =>
    intro p hp
    simp only [fsm.applyCommand, fsm.deleteSource] at hp
    cases halook : alook source st with
    | none =>
      rw [halook] at hp
      exact h p hp
    | some m =>
      rw [halook] at hp
      exact h p (mem_aers hp)
  | unknown operation =>
    intro p hp
    exact h p hp

theorem applyAll_no_empty (st : Storage) (cmds : List Cmd)
    (h : ∀ p ∈ st, p.2 ≠ []) :
    ∀ p ∈ fsm.applyAll st cmds, p.2 ≠ [] := by
  induction cmds generalizing st with
  | nil => exact h
  | cons c t ih =>
    intro p hp
    exact ih (fsm.applyCommand st c).1 (applyCommand_no_empty st c h) p hp

/-- C3: starting from empty storage, any committed sequence of
SET / DELETE_KEY / DELETE_SOURCE commands leaves every stored source with
at least one key; and a DELETE_KEY that removes the last key of a source
removes the source itself, so `GetSources` no longer lists it. -/
theorem fsm_no_empty_sources :
    (∀ cmds : List Cmd, ∀ p ∈ fsm.applyAll [] cmds, p.2 ≠ []) ∧
    (∀ (st : Storage) (source key : String) (v : Value),
      SortedA st → alook source st = some [(key, v)] →
      source ∉ Store.GetSources (fsm.deleteKey st source key).2) := by
  constructor
  · intro cmds
    exact applyAll_no_empty [] cmds (by simp)
  · intro st source key v hs hone
    have hdel : (fsm.deleteKey st source key).2 = aers source st := by
      simp [fsm.deleteKey, hone, aers]
    rw [hdel]
    exact not_mem_akeys_of_alook_none (alook_aers_self source st hs)

/-- Witness for C3 at a one-source, one-key storage. -/
theorem fsm_no_empty_sources_witness :
    "s" ∉ Store.GetSources (fsm.deleteKey [("s", [("k", ([] : Value))])] "s" "k").2 :=
  fsm_no_empty_sources.2 [("s", [("k", ([] : Value))])] "s" "k" [] (by decide) (by decide)

/-! ## Publishes emitted by the delete commands -/

/-- C4: DELETE_KEY publishes `(source, key, nil)` exactly when the key was
present, and DELETE_SOURCE publishes once per key that was present in the
source — all with the empty value — and nothing when the source was
absent. -/
theorem fsm_delete_publishes (st : Storage) (source key : String)
    (hwf : StorageWF st) :
    ((fsm.applyCommand st (.deletekey source key)).2 =
      if (alook key ((alook source st).getD [])).isSome then [⟨source, key, []⟩] else []) ∧
    ((fsm.applyCommand st (.deleteSource source)).2.map PublishEvent.key =
      Store.GetKeys st source) ∧
    (∀ e ∈ (fsm.applyCommand st (.deleteSource source)).2,
      e.source = source ∧ e.value = []) ∧
    (∀ k2, (fsm.applyCommand st (.deleteSource source)).2.count ⟨source, k2, []⟩ =
      if (alook k2 ((alook source st).getD [])).isSome then 1 else 0) := by
  refine ⟨?_, ?_, ?_, ?_⟩
  · cases halook : alook source st with
    | none => simp [fsm.applyCommand, fsm.deleteKey, halook]
    | some m =>
      simp only [fsm.applyCommand, fsm.deleteKey, halook, Option.getD_some]
      by_cases he : (aers key m).isEmpty <;> simp [he]
  · cases halook : alook source st with
    | none => simp [fsm.applyCommand, fsm.deleteSource, halook, Store.GetKeys, akeys]
    | some m =>
      simp [fsm.applyCommand, fsm.deleteSource, halook, Store.GetKeys, akeys]
  · intro e he
    cases halook : alook source st with
    | none => simp [fsm.applyCommand, fsm.deleteSource, halook] at he
    | some m =>
      simp only [fsm.applyCommand, fsm.deleteSource, halook, List.mem_map] at he
      obtain ⟨k2, _, hk⟩ := he
      rw [← hk]
      exact ⟨rfl, rfl⟩
  · intro k2
    cases halook : alook source st with
    | none => simp [fsm.applyCommand, fsm.deleteSource, halook]
    | some m =>
      have hminner : SortedA m := hwf.2 (source, m) (alook_mem halook)
      have hinj : Function.Injective (fun k => (⟨source, k, []⟩ : PublishEvent)) := by
        intro a b hab
        simpa using congrArg PublishEvent.key hab
      simp only [fsm.applyCommand, fsm.deleteSource, halook, Option.getD_some]
      rw [show (⟨source, k2, []⟩ : PublishEvent) =
            (fun k => (⟨source, k, []⟩ : PublishEvent)) k2 from rfl,
          List.count_map_of_injective _ _ hinj]
      exact count_akeys k2 m hminner

/-- Witness for C4 at a two-key source. -/
theorem fsm_delete_publishes_witness :
    (fsm.applyCommand [("s", [("a", ([] : Value)), ("b", [])])]
        (.deletekey "s" "a")).2 = [⟨"s", "a", []⟩] ∧
    (fsm.applyCommand [("s", [("a", ([] : Value)), ("b", [])])]
        (.deleteSource "s")).2.count ⟨"s", "a", []⟩ = 1 := by
  have h := fsm_delete_publishes [("s", [("a", ([] : Value)), ("b", [])])] "s" "a" (by decide)
  constructor
  · rw [h.1]
    decide
  · rw [h.2.2.2 "a"]
    decide

/-! ## Snapshot round trip -/

theorem charToSix_sixToChar (n : Nat) (h : n < 64) : charToSix (sixToChar n) = some n := by
  have hall : ∀ m : Fin 64, charToSix (sixToChar m.val) = some m.val := by decide
  exact hall ⟨n, h⟩

theorem sixToChar_ne_pad (n : Nat) (h : n < 64) : sixToChar n ≠ '=' := by
  have hall : ∀ m : Fin 64, sixToChar m.val ≠ '=' := by decide
  exact hall ⟨n, h⟩

theorem b64decode_b64encode (v : List Byte) : b64decode (b64encode v) = some v := by
  induction v using b64encode.induct with
  | case1 => rfl
  | case2 a =>
    have ha := a.isLt
    have h1 : charToSix (sixToChar (a.val / 4)) = some (a.val / 4) :=
      charToSix_sixToChar _ (by omega)
    have h2 : charToSix (sixToChar (a.val % 4 * 16)) = some (a.val % 4 * 16) :=
      charToSix_sixToChar _ (by omega)
    simp only [b64encode, b64decode, h1, h2]
    simp [mkByte, Fin.ext_iff]; omega
  | case3 a b =>
    have ha := a.isLt
    have hb := b.isLt
    have h1 : charToSix (sixToChar (a.val / 4)) = some (a.val / 4) :=
      charToSix_sixToChar _ (by omega)
    have h2 : charToSix (sixToChar (a.val % 4 * 16 + b.val / 16)) =
        some (a.val % 4 * 16 + b.val / 16) :=
      charToSix_sixToChar _ (by omega)
    have h3 : sixToChar (b.val % 16 * 4) ≠ '=' := sixToChar_ne_pad _ (by omega)
    have h4 : charToSix (sixToChar (b.val % 16 * 4)) = some (b.val % 16 * 4) :=
      charToSix_sixToChar _ (by omega)
    simp only [b64encode, b64decode, h1, h2, h3, h4]
    simp [mkByte, Fin.ext_iff]; omega
  | case4 a b c t ih =>
    have ha := a.isLt
    have hb := b.isLt
    have hc := c.isLt
    have h1 : charToSix (sixToChar (a.val / 4)) = some (a.val / 4) :=
      charToSix_sixToChar _ (by omega)
    have h2 : charToSix (sixToChar (a.val % 4 * 16 + b.val / 16)) =
        some (a.val % 4 * 16 + b.val / 16) :=
      charToSix_sixToChar _ (by omega)
    have h3 : sixToChar (b.val % 16 * 4 + c.val / 64) ≠ '=' := sixToChar_ne_pad _ (by omega)
    have h4 : charToSix (sixToChar (b.val % 16 * 4 + c.val / 64)) =
        some (b.val % 16 * 4 + c.val / 64) :=
      charToSix_sixToChar _ (by omega)
    have h5 : sixToChar (c.val % 64) ≠ '=' := sixToChar_ne_pad _ (by omega)
    have h6 : charToSix (sixToChar (c.val % 64)) = some (c.val % 64) :=
      charToSix_sixToChar _ (by omega)
    simp only [b64encode, b64decode, h1, h2, h3, h4, h5, h6, ih]
    simp [mkByte, Fin.ext_iff]; omega

theorem decodeKvs_aux (m : kvs) (acc : kvs) :
    List.foldlM (fun acc q =>
      match q.2 with
      | Json.str s => (b64decode s.data).map fun v => ains q.1 v acc
      | Json.obj _ => none) acc (m.map fun q => (q.1, Json.str ⟨b64encode q.2⟩)) =
    some (m.foldl (fun a p => ains p.1 p.2 a) acc) := by
  induction m generalizing acc with
  | nil => rfl
  | cons p t ih =>
    simp only [List.map_cons, List.foldlM_cons]
    have hdec : b64decode (String.mk (b64encode p.2)).data = some p.2 :=
      b64decode_b64encode p.2
    simp only [hdec, Option.map_some]
    rw [List.foldl_cons]
    exact ih (ains p.1 p.2 acc)

theorem decodeKvs_encodeKvs (m : kvs) (hs : SortedA m) :
    decodeKvs (encodeKvs m) = some m := by
  simp only [decodeKvs, encodeKvs]
  rw [decodeKvs_aux m []]
  rw [foldl_ains_id m hs]

theorem decodeStorage_aux (st : Storage) (acc : Storage)
    (h : ∀ p ∈ st, SortedA p.2) :
    List.foldlM (fun acc q => (decodeKvs q.2).map fun m => ains q.1 m acc) acc
      (st.map fun p => (p.1, encodeKvs p.2)) =
    some (st.foldl (fun a p => ains p.1 p.2 a) acc) := by
  induction st generalizing acc with
  | nil => rfl
  | cons p t ih =>
    simp only [List.map_cons, List.foldlM_cons]
    rw [decodeKvs_encodeKvs p.2 (h p (List.mem_cons_self _ _))]
    simp only [Option.map_some, Option.map_some', Option.some_bind]
    rw [List.foldl_cons]
    exact ih (ains p.1 p.2 acc) (fun q hq => h q (List.mem_cons_of_mem _ hq))

theorem decodeStorage_encodeStorage (st : Storage) (hwf : StorageWF st) :
    decodeStorage (encodeStorage st) = some st := by
  simp only [decodeStorage, encodeStorage]
  rw [decodeStorage_aux st [] hwf.2]
  rw [foldl_ains_id st hwf.1]

theorem clone_inner (st : Storage) (acc : Storage) (h : ∀ p ∈ st, SortedA p.2) :
    st.foldl (fun acc p => ains p.1 (p.2.foldl (fun a2 q => ains q.1 q.2 a2) []) acc) acc =
    st.foldl (fun a p => ains p.1 p.2 a) acc := by
  induction st generalizing acc with
  | nil => rfl
  | cons p t ih =>
    simp only [List.foldl_cons]
    rw [foldl_ains_id p.2 (h p (List.mem_cons_self _ _))]
    exact ih (ains p.1 p.2 acc) (fun q hq => h q (List.mem_cons_of_mem _ hq))

theorem clone_id (st : Storage) (hwf : StorageWF st) : fsm.clone st = st := by
  unfold fsm.clone
  rw [clone_inner st [] hwf.2]
  exact foldl_ains_id st hwf.1

/-- C5: restoring the serialized snapshot of any well-formed storage state
reproduces the state exactly, and the snapshot clone equals the cloned
state (the source map is only read while cloning — the fold never writes
to it). -/
theorem fsm_snapshot_restore_fixed_point (st : Storage) (hwf : StorageWF st) :
    fsm.Restore (fsm.Persist (fsm.Snapshot st)) = some st ∧ fsm.Snapshot st = st := by
  have hc : fsm.Snapshot st = st := clone_id st hwf
  refine ⟨?_, hc⟩
  unfold fsm.Restore fsm.Persist
  rw [hc]
  exact decodeStorage_encodeStorage st hwf

/-- Witness for C5 at a two-source storage with a non-trivial byte value. -/
theorem fsm_snapshot_restore_fixed_point_witness :
    fsm.Restore (fsm.Persist (fsm.Snapshot
      [("a", [("k", [(255 : Byte), 0, 17])]), ("b", [("x", [])])])) =
      some [("a", [("k", [(255 : Byte), 0, 17])]), ("b", [("x", [])])] :=
  (fsm_snapshot_restore_fixed_point
    [("a", [("k", [(255 : Byte), 0, 17])]), ("b", [("x", [])])] (by decide)).1

/-! ## Leader gating of mutations -/

/-- C6: every mutation submitted through a non-leader node's Store fails
with its not-leader error, submits no command to the log, and leaves the
store state — in particular the storage map — unchanged; Join likewise
fails and changes nothing. -/
theorem Store_not_leader_mutations_fail (s : StoreState) (source key addr : String)
    (v : Value) (h : s.isLeader = false) :
    ((Store.Set s source key v).result =
        .error "Set should only be called on the leader" ∧
      (Store.Set s source key v).submitted = [] ∧
      (Store.Set s source key v).state = s) ∧
    ((Store.DeleteKey s source key).result =
        .error "DeleteKey should only be called on the leader" ∧
      (Store.DeleteKey s source key).submitted = [] ∧
      (Store.DeleteKey s source key).state = s) ∧
    ((Store.DeleteSource s source).result =
        .error "DeleteSource should only be called on the leader" ∧
      (Store.DeleteSource s source).submitted = [] ∧
      (Store.DeleteSource s source).state = s) ∧
    ((Store.Join s addr).1 = .error "Join should only be called on the leader" ∧
      (Store.Join s addr).2 = s) := by
  simp [Store.Set, Store.DeleteKey, Store.DeleteSource, Store.Join, h]

/-- Witness for C6 on a concrete follower state. -/
theorem Store_not_leader_mutations_fail_witness :
    (Store.Set ⟨false, [], []⟩ "s" "k" []).result =
      .error "Set should only be called on the leader" ∧
    (Store.Set ⟨false, [], []⟩ "s" "k" []).submitted = [] :=
  ⟨(Store_not_leader_mutations_fail ⟨false, [], []⟩ "s" "k" "addr" [] rfl).1.1,
   (Store_not_leader_mutations_fail ⟨false, [], []⟩ "s" "k" "addr" [] rfl).1.2.1⟩

/-! ## Reads of absent entries -/

/-- C7: Get on a storage that lacks the source, or lacks the key inside a
present source, returns the empty value — the operation has no error
channel at all — and a freshly stored empty value reads back the same
way, so an absent key is indistinguishable from a stored empty value
through Get. -/
theorem Store_get_absent_empty (st : Storage) (source key : String) :
    (alook source st = none → Store.Get st source key = []) ∧
    (∀ m, alook source st = some m → alook key m = none →
      Store.Get st source key = []) ∧
    Store.Get (fsm.set st source key []) source key = [] := by
  refine ⟨?_, ?_, ?_⟩
  · intro h
    simp [Store.Get, h]
  · intro m h1 h2
    simp [Store.Get, h1, h2]
  · simp [Store.Get, fsm.set, alook_ains_self]

/-- Witness for C7: an empty storage and a stored empty value. -/
theorem Store_get_absent_empty_witness :
    Store.Get [] "s" "k" = [] ∧ Store.Get (fsm.set [] "s" "k" []) "s" "k" = [] :=
  ⟨(Store_get_absent_empty [] "s" "k").1 rfl, (Store_get_absent_empty [] "s" "k").2.2⟩

/-! ## Idempotence of the subscription operations -/

/-- C8: with a non-empty session, source (and key), subscribing a session
already present in the subscription set succeeds and returns the state
unchanged, and unsubscribing a session that is absent (or whose set does
not exist) succeeds and returns the state unchanged — for both the
source-scoped and the key-scoped operations. -/
theorem Server_subscribe_unsubscribe_idempotent (s : ServerState)
    (session source key : String) (hwf : ServerWF s)
    (hsess : session.length ≠ 0) (hsrc : source.length ≠ 0) (hkey : key.length ≠ 0) :
    (alook session ((alook source s.sourceSubs).getD []) = some () →
      Server.Subscribe s session source = .ok (s, source)) ∧
    (alook session ((alook source s.sourceSubs).getD []) = none →
      Server.Unsubscribe s session source = .ok (s, none)) ∧
    (alook session ((alook key ((alook source s.keySubs).getD [])).getD []) = some () →
      Server.SubscribeKey s session source key = .ok (s, source, key)) ∧
    (alook session ((alook key ((alook source s.keySubs).getD [])).getD []) = none →
      Server.UnsubscribeKey s session source key = .ok (s, none)) := by
  obtain ⟨hsessions, ⟨hsrcSorted, hsrcInner⟩, ⟨hkeySorted, hkeyInner⟩⟩ := hwf
  refine ⟨?_, ?_, ?_, ?_⟩
  · intro h
    cases hset : alook source s.sourceSubs with
    | none => simp [hset, alook] at h
    | some setFor =>
      rw [hset] at h
      simp only [Option.getD_some] at h
      have hsetSorted : SortedA setFor := hsrcInner (source, setFor) (alook_mem hset)
      have e1 : ains session () setFor = setFor := ains_self_eq _ _ _ hsetSorted h
      simp [Server.Subscribe, hsess, hsrc, hset, e1, ains_self_eq _ _ _ hsrcSorted hset]
  · intro h
    cases hset : alook source s.sourceSubs with
    | none => simp [Server.Unsubscribe, hsess, hsrc, hset]
    | some setFor =>
      rw [hset] at h
      simp only [Option.getD_some] at h
      simp [Server.Unsubscribe, hsess, hsrc, hset, h]
  · intro h
    cases hfs : alook source s.keySubs with
    | none => simp [hfs, alook] at h
    | some forSource =>
      rw [hfs] at h
      simp only [Option.getD_some] at h
      cases hfk : alook key forSource with
      | none => simp [hfk, alook] at h
      | some forKey =>
        rw [hfk] at h
        simp only [Option.getD_some] at h
        have hfsInner := hkeyInner (source, forSource) (alook_mem hfs)
        have hfkSorted : SortedA forKey := hfsInner.2 (key, forKey) (alook_mem hfk)
        have e1 : ains session () forKey = forKey := ains_self_eq _ _ _ hfkSorted h
        have e2 : ains key forKey forSource = forSource :=
          ains_self_eq _ _ _ hfsInner.1 hfk
        simp [Server.SubscribeKey, hsess, hsrc, hkey, hfs, hfk, e1, e2,
          ains_self_eq _ _ _ hkeySorted hfs]
  · intro h
    cases hfs : alook source s.keySubs with
    | none => simp [Server.UnsubscribeKey, hsess, hsrc, hkey, hfs]
    | some forSource =>
      rw [hfs] at h
      simp only [Option.getD_some] at h
      cases hfk : alook key forSource with
      | none => simp [Server.UnsubscribeKey, hsess, hsrc, hkey, hfs, hfk]
      | some forKey =>
        rw [hfk] at h
        simp only [Option.getD_some] at h
        simp [Server.UnsubscribeKey, hsess, hsrc, hkey, hfs, hfk, h]

/-- Witness for C8: one session subscribed to source `src`, absent from
the key set of `(src, k)`. -/
theorem Server_subscribe_unsubscribe_idempotent_witness :
    Server.Subscribe ⟨[], [("src", [("AA", ())])], []⟩ "AA" "src" =
      .ok (⟨[], [("src", [("AA", ())])], []⟩, "src") ∧
    Server.UnsubscribeKey ⟨[], [("src", [("AA", ())])], []⟩ "AA" "src" "k" =
      .ok (⟨[], [("src", [("AA", ())])], []⟩, none) := by
  have h := Server_subscribe_unsubscribe_idempotent ⟨[], [("src", [("AA", ())])], []⟩
    "AA" "src" "k" (by decide) (by decide) (by decide) (by decide)
  exact ⟨h.1 (by decide), h.2.2.2 (by decide)⟩

/-! ## Update fan-out on publish -/

theorem countP_filter_set (f : String → Bool) (id : String) (ids : SessionMap)
    (hs : SortedA ids) :
    ((akeys ids).filter f).countP (fun i => i = id) =
      if (alook id ids).isSome ∧ f id then 1 else 0 := by
  induction ids with
  | nil => simp [akeys, alook]
  | cons p t ih =>
    obtain ⟨k1, v1⟩ := p
    have hrest := ih hs.tail
    by_cases hk : id = k1
    · subst hk
      have hnone : alook id t = none :=
        alook_none_of_lt id t hs.tail (sortedA_head hs)
      rw [hnone] at hrest
      simp only [Option.isSome_none, Bool.false_eq_true, false_and, if_false] at hrest
      have hnotin : ∀ a ∈ akeys t, ¬ a = id := by
        intro a hmem heq
        subst heq
        exact not_mem_akeys_of_alook_none hnone hmem
      have hrest2 : List.countP (fun i => decide (i = id))
          (List.filter f (List.map Prod.fst t)) = 0 := hrest
      by_cases hf : f id
      · simp only [akeys, List.map_cons, List.filter_cons, hf, if_pos, alook,
          if_pos rfl, Option.isSome_some, true_and]
        rw [List.countP_cons_of_pos _ _ (by simp), hrest2]
      · simp only [akeys, List.map_cons, List.filter_cons, hf, Bool.false_eq_true,
          if_false, alook]
        simpa [hf] using hrest2
    · have hlook : alook id ((k1, v1) :: t) = alook id t := by
        simp [alook, hk]
      rw [hlook]
      by_cases hf : f k1
      · simp only [akeys, List.map_cons, List.filter_cons, hf, if_pos]
        rw [List.countP_cons_of_neg]
        · exact hrest
        · simp only [decide_eq_true_eq]
          exact fun h => hk h.symm
      · simp only [akeys, List.map_cons, List.filter_cons, hf, Bool.false_eq_true, if_false]
        exact hrest

/-- C1 counterexample: a session holding a stream and subscribed both to
source `src` and to its key `k` receives two Updates for a single publish
of `(src, k)` — the fan-out walks both subscription sets without
deduplicating by session identifier. -/
theorem Server_publish_duplicate_counterexample :
    List.countP (fun p => p.1 = "AA")
      (Server.publish ⟨[("AA", ⟨"AA", some 0⟩)], [("src", [("AA", ())])],
        [("src", [("k", [("AA", ())])])]⟩ "src" "k" []) = 2 := by
  decide

/-- C1 amended: for a publish of `(source, key, value)`, a session holding
a stream receives one Update per subscription set it belongs to: one if
it is in the source-subscription set, plus one if it is in the
key-subscription set of `(source, key)` — hence two when it is in both,
not one. -/
theorem Server_publish_per_subscription (s : ServerState) (source key id : String)
    (value : Value) (hwf : ServerWF s) :
    (Server.publish s source key value).countP (fun p => p.1 = id) =
      (if (alook id ((alook source s.sourceSubs).getD [])).isSome ∧
          Server.notifies s id then 1 else 0) +
      (if (alook id ((alook key ((alook source s.keySubs).getD [])).getD [])).isSome ∧
          Server.notifies s id then 1 else 0) := by
  obtain ⟨hsessions, ⟨hsrcSorted, hsrcInner⟩, ⟨hkeySorted, hkeyInner⟩⟩ := hwf
  have hs1 : SortedA ((alook source s.sourceSubs).getD []) := by
    cases h : alook source s.sourceSubs with
    | none => exact sortedA_nil
    | some m => exact hsrcInner (source, m) (alook_mem h)
  have hs2 : SortedA ((alook key ((alook source s.keySubs).getD [])).getD []) := by
    cases h : alook source s.keySubs with
    | none =>
      simp only [Option.getD_none, alook_nil, Option.getD_none]
      exact sortedA_nil
    | some fs =>
      simp only [Option.getD_some]
      cases h2 : alook key fs with
      | none => exact sortedA_nil
      | some fk => exact (hkeyInner (source, fs) (alook_mem h)).2 (key, fk) (alook_mem h2)
  unfold Server.publish
  simp only [List.countP_append, List.countP_map]
  rw [show ((fun p : String × PublishEvent => decide (p.1 = id)) ∘
        fun identifier => (identifier, (⟨source, key, value⟩ : PublishEvent))) =
      (fun i : String => decide (i = id)) from rfl]
  rw [countP_filter_set _ id _ hs1, countP_filter_set _ id _ hs2]

/-- Witness for C1 as amended: a stream-holding session only in the
source-subscription set receives exactly one Update. -/
theorem Server_publish_per_subscription_witness :
    List.countP (fun p => p.1 = "AA")
      (Server.publish ⟨[("AA", ⟨"AA", some 0⟩)], [("src", [("AA", ())])], []⟩
        "src" "k" []) = 1 := by
  have h := Server_publish_per_subscription
    ⟨[("AA", ⟨"AA", some 0⟩)], [("src", [("AA", ())])], []⟩ "src" "k" "AA" []
    (by decide)
  rw [h]
  decide

/-! ## Session teardown -/

/-- C2 evaluated at a failing input: removeSession erases the session from
the registry, but in the two subscription indices it deletes the session
identifier as a top-level source key, so a session subscribed to source
`colors` is still inside that subscription set afterwards; repeating the
call changes nothing more. -/
theorem Server_removeSession_leaves_subscriptions :
    Server.removeSession
        ⟨[("SESS", ⟨"SESS", some 0⟩)], [("colors", [("SESS", ())])], []⟩ "SESS" =
      ⟨[], [("colors", [("SESS", ())])], []⟩ ∧
    Server.removeSession ⟨[], [("colors", [("SESS", ())])], []⟩ "SESS" =
      ⟨[], [("colors", [("SESS", ())])], []⟩ := by
  constructor
  · decide
  · decide

/-! ## Connect and session identifiers -/

theorem generateSessionID_spec (sessions : List (String × Session))
    (entropy : List (List Byte)) (id : String)
    (h : Server.generateSessionID sessions entropy = some id) :
    alook id sessions = none ∧ ∃ b ∈ entropy, id = formatHexUpper b := by
  induction entropy with
  | nil => simp [Server.generateSessionID] at h
  | cons b rest ih =>
    simp only [Server.generateSessionID] at h
    by_cases hc : (alook (formatHexUpper b) sessions).isSome
    · rw [if_pos hc] at h
      obtain ⟨h1, b2, hb2, he⟩ := ih h
      exact ⟨h1, b2, List.mem_cons_of_mem _ hb2, he⟩
    · rw [if_neg hc] at h
      have hid : id = formatHexUpper b := (Option.some.injEq _ _).mp h.symm
      subst hid
      exact ⟨Option.not_isSome_iff_eq_none.mp hc, _, List.mem_cons_self _ _, rfl⟩

theorem formatHexUpper_length (b : List Byte) :
    (formatHexUpper b).length = 2 * b.length := by
  induction b with
  | nil => rfl
  | cons x t ih =>
    simp only [formatHexUpper, String.length, List.flatMap_cons] at ih ⊢
    simp only [List.length_append, List.length_cons, List.length_nil]
    omega

theorem formatHexUpper_chars (b : List Byte) :
    ∀ c ∈ (formatHexUpper b).data, c ∈ hexChars := by
  have hdigit : ∀ m : Fin 16, hexDigit m.val ∈ hexChars := by decide
  intro c hc
  simp only [formatHexUpper, List.mem_flatMap] at hc
  obtain ⟨x, _, hcx⟩ := hc
  have hx := x.isLt
  rcases List.mem_cons.mp hcx with h | h
  · subst h
    exact hdigit ⟨x.val / 16, by omega⟩
  · rcases List.mem_cons.mp h with h2 | h2
    · subst h2
      exact hdigit ⟨x.val % 16, by omega⟩
    · simp at h2

/-- C9 counterexample: when the random source repeats ten zero bytes, a
first Connect returns identifier `00000000000000000000`; after the session
is removed the registry check no longer guards that identifier, and a
second Connect returns the very same identifier within the same process
lifetime. -/
theorem Server_connect_duplicate_counterexample :
    Server.Connect ServerState.empty [List.replicate 10 (0 : Byte)] =
      some (⟨[("00000000000000000000", ⟨"00000000000000000000", none⟩)], [], []⟩,
        "00000000000000000000") ∧
    Server.Connect
        (Server.removeSession
          ⟨[("00000000000000000000", ⟨"00000000000000000000", none⟩)], [], []⟩
          "00000000000000000000")
        [List.replicate 10 (0 : Byte)] =
      some (⟨[("00000000000000000000", ⟨"00000000000000000000", none⟩)], [], []⟩,
        "00000000000000000000") := by
  constructor
  · decide
  · decide

/-- C9 amended: every identifier Connect returns is a 20-character
uppercase-hexadecimal rendering of 10 random bytes, is never an
identifier present in the registry at the time of the call, and is
registered by the call — hence any directly following Connect returns a
different identifier; uniqueness over a whole process lifetime holds only
while earlier sessions remain registered. -/
theorem Server_connect_fresh_identifier (s : ServerState)
    (entropy : List (List Byte)) (s2 : ServerState) (sid : String)
    (hlen : ∀ e ∈ entropy, e.length = 10)
    (h : Server.Connect s entropy = some (s2, sid)) :
    (sid.length = 20 ∧ ∀ c ∈ sid.data, c ∈ hexChars) ∧
    alook sid s.sessions = none ∧
    alook sid s2.sessions = some ⟨sid, none⟩ ∧
    (∀ entropy2 s3 id2, Server.Connect s2 entropy2 = some (s3, id2) → id2 ≠ sid) := by
  unfold Server.Connect at h
  cases hg : Server.generateSessionID s.sessions entropy with
  | none => rw [hg] at h; exact absurd h (by simp)
  | some gid =>
    rw [hg] at h
    have hpair : (Server.addSession s gid none).1 = s2 ∧ gid = sid := by
      constructor
      · exact congrArg Prod.fst ((Option.some.injEq _ _).mp h)
      · exact congrArg Prod.snd ((Option.some.injEq _ _).mp h)
    obtain ⟨hs2, hgid⟩ := hpair
    rw [hgid] at hs2 hg
    obtain ⟨hnone, b, hb, hfmt⟩ := generateSessionID_spec s.sessions entropy sid hg
    have hs2sessions : s2.sessions = ains sid ⟨sid, none⟩ s.sessions := by
      rw [← hs2]
      rfl
    refine ⟨⟨?_, ?_⟩, hnone, ?_, ?_⟩
    · rw [hfmt, formatHexUpper_length, hlen b hb]
    · intro c hc
      rw [hfmt] at hc
      exact formatHexUpper_chars b c hc
    · rw [hs2sessions]
      exact alook_ains_self _ _ _
    · intro entropy2 s3 id2 h2 heq
      unfold Server.Connect at h2
      cases hg2 : Server.generateSessionID s2.sessions entropy2 with
      | none => rw [hg2] at h2; exact absurd h2 (by simp)
      | some gid2 =>
        rw [hg2] at h2
        have hq : gid2 = id2 := congrArg Prod.snd ((Option.some.injEq _ _).mp h2)
        have hn2 := (generateSessionID_spec s2.sessions entropy2 gid2 hg2).1
        rw [hq, heq, hs2sessions, alook_ains_self] at hn2
        exact absurd hn2 (by simp)

/-- Witness for C9 as amended, at the all-zero entropy. -/
theorem Server_connect_fresh_identifier_witness :
    (("00000000000000000000" : String).length = 20 ∧
      ∀ c ∈ ("00000000000000000000" : String).data, c ∈ hexChars) ∧
    alook "00000000000000000000" ServerState.empty.sessions = none ∧
    alook "00000000000000000000"
      (⟨[("00000000000000000000", ⟨"00000000000000000000", none⟩)], [], []⟩ :
        ServerState).sessions = some ⟨"00000000000000000000", none⟩ ∧
    (∀ entropy2 s3 id2,
      Server.Connect
        (⟨[("00000000000000000000", ⟨"00000000000000000000", none⟩)], [], []⟩ :
          ServerState) entropy2 = some (s3, id2) →
      id2 ≠ "00000000000000000000") :=
  Server_connect_fresh_identifier ServerState.empty [List.replicate 10 0]
    ⟨[("00000000000000000000", ⟨"00000000000000000000", none⟩)], [], []⟩
    "00000000000000000000" (by decide) (by decide)

/-! ## Listen accepts any session identifier -/

/-- C10: the registration step of Listen accepts every session identifier,
including the empty string and identifiers never issued by Connect: the
addSession step is total, installs a record holding the inbound stream
under the identifier (overwriting any previous record), and returns that
record. -/
theorem Server_listen_accepts_any_session (s : ServerState) (reqSession : String)
    (stream : StreamHandle) :
    alook reqSession (Server.ListenRegister s reqSession stream).sessions =
      some ⟨reqSession, some stream⟩ ∧
    (Server.addSession s reqSession (some stream)).2 = ⟨reqSession, some stream⟩ := by
  constructor
  · exact alook_ains_self _ _ _
  · rfl
